import Mathlib

/-!
Verification of the `sub` command-line find-and-replace utility.

The development shallowly embeds the program's core (`src/sub.rs`):
pattern compilation (`Sub::run`'s whole-word wrapping and case-insensitive
`RegexBuilder` configuration), the line-oriented stream replacer
(`Sub::replace`), input resolution (`create_reader`), the in-place file
edit protocol, and the per-input orchestration loop of `Sub::run`.

Strings are `List Char`; file and stream contents are `List Nat` (bytes).
The external `regex` crate is embedded as a small matcher for the regex
fragment the development exercises (literal characters, `\b` word
boundaries, `\w`, the `$` end-of-haystack anchor, case-insensitive
comparison), together with a faithful model of the crate's `find_iter`
traversal: leftmost search, and an empty match immediately adjacent to the
previous match's end is skipped.  Capture-group expansion in the
replacement is outside the modelled fragment, so the replacement string is
inserted literally, and `\w`/`\b` use ASCII word characters.
-/

namespace SubProg

/-- Character strings, as in the Rust `String` line buffers. -/
abbrev Str := List Char

/-! ## The embedded regex fragment -/

/-- One atom of the modelled regex fragment. -/
inductive RAtom where
  | lit (c : Char)
  | anyWordChar
  | wordB
  | eol
deriving DecidableEq, Repr

/-- ASCII word characters, the `\w` class restricted to ASCII. -/
def isWordChar (c : Char) : Bool := c.isAlphanum || c = '_'

/-- Whether position `i` of `s` holds a word character. -/
def isWordAt (s : Str) (i : Nat) : Bool :=
  match s.get? i with
  | some c => isWordChar c
  | none => false

/-- Word boundary test at position `i` (position `-1` counts as non-word). -/
def wordBoundaryAt (s : Str) (i : Nat) : Bool :=
  (if i = 0 then false else isWordAt s (i - 1)) != isWordAt s i

/-- Character comparison, case-insensitive when `ci` is set
(`RegexBuilder::case_insensitive`). -/
def charMatches (ci : Bool) (c d : Char) : Bool :=
  if ci then c.toLower = d.toLower else c = d

/-- Match a sequence of atoms against `s` starting at position `i`,
returning the end position of the match.  Positions beyond the haystack
never match (the engine is only ever queried inside the haystack). -/
def atomsMatch (ci : Bool) : List RAtom → Str → Nat → Option Nat
  | [], s, i => if i ≤ s.length then some i else none
  | .lit c :: as, s, i =>
    match s.get? i with
    | some d => if charMatches ci c d then atomsMatch ci as s (i + 1) else none
    | none => none
  | .anyWordChar :: as, s, i =>
    match s.get? i with
    | some d => if isWordChar d then atomsMatch ci as s (i + 1) else none
    | none => none
  | .wordB :: as, s, i =>
    if wordBoundaryAt s i then atomsMatch ci as s i else none
  | .eol :: as, s, i =>
    if i = s.length then atomsMatch ci as s i else none

/-- Parse a pattern string into the modelled fragment.  Unsupported
regex constructs are rejected (`none`), as is a syntactically invalid
pattern such as an unmatched `(` or a trailing backslash. -/
def regexParse : Str → Option (List RAtom)
  | [] => some []
  | '\\' :: c :: rest =>
    if c = 'b' then (regexParse rest).map (.wordB :: ·)
    else if c = 'w' then (regexParse rest).map (.anyWordChar :: ·)
    else if c = 'n' then (regexParse rest).map (.lit '\n' :: ·)
    else if c = '\\' then (regexParse rest).map (.lit '\\' :: ·)
    else none
  | ['\\'] => none
  | c :: rest =>
    if c = '$' then (regexParse rest).map (.eol :: ·)
    else if c ∈ ['(', ')', '[', ']', '*', '+', '?', '|', '^', '.'] then none
    else (regexParse rest).map (.lit c :: ·)

/-- A compiled matcher: `matchAt s i` is the end position of the match the
engine produces at start position `i` of haystack `s`, if any. -/
structure Matcher where
  matchAt : Str → Nat → Option Nat

/-- The matcher of a parsed pattern under a case-insensitivity flag. -/
def regexMatcherOf (pat : List RAtom) (ci : Bool) : Matcher :=
  ⟨fun s i => atomsMatch ci pat s i⟩

/-- `RegexBuilder::new(p).case_insensitive(ci).build()`. -/
def regexCompile (p : Str) (ci : Bool) : Option Matcher :=
  (regexParse p).map (regexMatcherOf · ci)

/-! ## The find_iter traversal and replace_all -/

/-- Slice `s[a..b]`. -/
def extract (s : Str) (a b : Nat) : Str := (s.drop a).take (b - a)

/-- Try successive start positions `j, j+1, ...` (`k` of them) and return
the first (leftmost) position where the matcher matches. -/
def findFromAux (m : Matcher) (s : Str) : Nat → Nat → Option (Nat × Nat)
  | _, 0 => none
  | j, k + 1 =>
    match m.matchAt s j with
    | some e => some (j, e)
    | none => findFromAux m s (j + 1) k

/-- Leftmost match of `m` in `s` whose start is at or after `sp`. -/
def findFrom (m : Matcher) (s : Str) (sp : Nat) : Option (Nat × Nat) :=
  findFromAux m s sp (s.length + 1 - sp)

/-- Whether `m` matches anywhere in `s` (`Regex::is_match`). -/
def isMatch (m : Matcher) (s : Str) : Bool := (findFrom m s 0).isSome

/-- The loop of `Regex::replace_all`: `last` is the end of emitted input,
`sp` the next search position, `lm` the end of the previously yielded
match.  An empty match whose position equals `lm` is skipped, as in the
`regex` crate's `Matches` iterator. -/
def replaceCore (m : Matcher) (repl s : Str) : Nat → Nat → Option Nat → Nat → Str
  | last, _, _, 0 => s.drop last
  | last, sp, lm, fuel + 1 =>
    match findFrom m s sp with
    | none => s.drop last
    | some (st, en) =>
      if en = st then
        if lm = some st then replaceCore m repl s last (st + 1) lm fuel
        else extract s last st ++ repl ++ replaceCore m repl s st (st + 1) (some st) fuel
      else extract s last st ++ repl ++ replaceCore m repl s en en (some en) fuel

/-- `Regex::replace_all(s, repl)` with a literal replacement. -/
def replaceAll (m : Matcher) (repl s : Str) : Str :=
  replaceCore m repl s 0 0 none (s.length + 1)

/-- The sequence of matches yielded by the `find_iter` traversal that
`replace_all` consumes, same state evolution as `replaceCore`. -/
def matchListCore (m : Matcher) (s : Str) : Nat → Option Nat → Nat → List (Nat × Nat)
  | _, _, 0 => []
  | sp, lm, fuel + 1 =>
    match findFrom m s sp with
    | none => []
    | some (st, en) =>
      if en = st then
        if lm = some st then matchListCore m s (st + 1) lm fuel
        else (st, en) :: matchListCore m s (st + 1) (some st) fuel
      else (st, en) :: matchListCore m s en (some en) fuel

/-- All matches `replace_all` substitutes, in order. -/
def matchList (m : Matcher) (s : Str) : List (Nat × Nat) :=
  matchListCore m s 0 none (s.length + 1)

/-- Specification-side stitching: emit the input segments between
consecutive matches, inserting the replacement at each match. -/
def stitch (s repl : Str) : Nat → List (Nat × Nat) → Str
  | last, [] => s.drop last
  | last, (st, en) :: ms => extract s last st ++ repl ++ stitch s repl en ms

/-! ## The stream replacer (`Sub::replace`) -/

/-- One iteration body of `Sub::replace`: the line filter gates the line
(`map_or(true, |m| m.is_match(..))`), and an eligible line undergoes
`replace_all`. -/
def processLine (re : Matcher) (filt : Option Matcher) (repl line : Str) : Str :=
  if (filt.map (fun f => isMatch f line)).getD true then replaceAll re repl line
  else line

/-- Split a byte stream into the chunks successive `read_line` calls
return: maximal segments each ending with `0x0A`, plus a final
unterminated segment if the stream does not end with `0x0A`. -/
def splitAfterNlAux : List Nat → List Nat → List (List Nat)
  | acc, [] => if acc = [] then [] else [acc.reverse]
  | acc, b :: rest =>
    if b = 10 then (acc.reverse ++ [10]) :: splitAfterNlAux [] rest
    else splitAfterNlAux (b :: acc) rest

/-- The lines (terminators included) `read_line` yields for a byte input. -/
def splitAfterNl (bs : List Nat) : List (List Nat) := splitAfterNlAux [] bs

/-- Whether a byte is a UTF-8 continuation byte. -/
def isCont (b : Nat) : Bool := 128 ≤ b && b ≤ 191

/-- Strict UTF-8 decoding (rejecting overlong forms, surrogates and
out-of-range code points), as `read_line` validates its bytes. -/
def utf8Decode : List Nat → Option Str
  | [] => some []
  | b :: rest =>
    if b ≤ 127 then (utf8Decode rest).map (Char.ofNat b :: ·)
    else if 194 ≤ b ∧ b ≤ 223 then
      match rest with
      | b1 :: rest1 =>
        if isCont b1 then
          (utf8Decode rest1).map (Char.ofNat ((b - 192) * 64 + (b1 - 128)) :: ·)
        else none
      | [] => none
    else if 224 ≤ b ∧ b ≤ 239 then
      match rest with
      | b1 :: b2 :: rest2 =>
        if (if b = 224 then 160 ≤ b1 && b1 ≤ 191
            else if b = 237 then 128 ≤ b1 && b1 ≤ 159
            else isCont b1) && isCont b2 then
          (utf8Decode rest2).map
            (Char.ofNat ((b - 224) * 4096 + (b1 - 128) * 64 + (b2 - 128)) :: ·)
        else none
      | _ => none
    else if 240 ≤ b ∧ b ≤ 244 then
      match rest with
      | b1 :: b2 :: b3 :: rest3 =>
        if (if b = 240 then 144 ≤ b1 && b1 ≤ 191
            else if b = 244 then 128 ≤ b1 && b1 ≤ 143
            else isCont b1) && isCont b2 && isCont b3 then
          (utf8Decode rest3).map
            (Char.ofNat ((b - 240) * 262144 + (b1 - 128) * 4096
              + (b2 - 128) * 64 + (b3 - 128)) :: ·)
        else none
      | _ => none
    else none

/-- UTF-8 encoding of one character. -/
def utf8EncodeChar (c : Char) : List Nat :=
  let n := c.toNat
  if n ≤ 127 then [n]
  else if n ≤ 2047 then [192 + n / 64, 128 + n % 64]
  else if n ≤ 65535 then [224 + n / 4096, 128 + (n / 64) % 64, 128 + n % 64]
  else [240 + n / 262144, 128 + (n / 4096) % 64, 128 + (n / 64) % 64, 128 + n % 64]

/-- UTF-8 encoding of a string. -/
def utf8Encode (s : Str) : List Nat := (s.map utf8EncodeChar).flatten

/-- The errors of `sub.rs` (`SubError`); environment-only payloads are
reduced to the offending path. -/
inductive SubError where
  | FailedToWrite
  | InvalidUTF8
  | RegexError
  | FileNotFoundError (path : String)
  | CanNotCreateTempFile
  | CanNotReadPermissions (path : String)
  | CanNotSetPermissions (path : String)
  | CanNotReplaceInPlace (path : String)
deriving DecidableEq, Repr

/-- The loop of `Sub::replace` over the chunks `read_line` yields: each
chunk is UTF-8-decoded (failure is `InvalidUTF8` and stops the loop with
no output for that chunk), processed, and its output committed. -/
def replaceChunks (re : Matcher) (filt : Option Matcher) (repl : Str) :
    List (List Nat) → List Nat × Option SubError
  | [] => ([], none)
  | c :: rest =>
    match utf8Decode c with
    | none => ([], some .InvalidUTF8)
    | some line =>
      (utf8Encode (processLine re filt repl line) ++ (replaceChunks re filt repl rest).1,
        (replaceChunks re filt repl rest).2)

/-- `Sub::replace` on a whole byte stream: the bytes written to the sink,
and the error that stopped the loop, if any. -/
def replaceStream (re : Matcher) (filt : Option Matcher) (repl : Str)
    (bs : List Nat) : List Nat × Option SubError :=
  replaceChunks re filt repl (splitAfterNl bs)

/-! ## Job orchestration (`Sub::run`) -/

/-- A logical input (`Input` in `sub.rs`). -/
inductive Input where
  | StdIn
  | File (path : String)
deriving DecidableEq, Repr

/-- The job descriptor (`struct Sub`). -/
structure Sub where
  pattern : Str
  replacement : Str
  in_place : Bool
  whole_word : Bool
  ignore_case : Bool
  match_pattern : Option Str
  inputs : List Input

/-- A file's state: permission bits and content bytes. -/
structure FileData where
  perm : Nat
  content : List Nat
deriving DecidableEq, Repr

/-- The file system visible to the program, an association list. -/
abbrev FS := List (String × FileData)

/-- Look a path up in the file system. -/
def lookupFS (fs : FS) (p : String) : Option FileData :=
  (fs.find? (fun kv => kv.1 = p)).map (·.2)

/-- Overwrite the data stored at a present path. -/
def updateFS (fs : FS) (p : String) (d : FileData) : FS :=
  fs.map (fun kv => if kv.1 = p then (p, d) else kv)

/-- `format!(r"\b{}\b", pattern)`. -/
def wrapWord (p : Str) : Str := '\\' :: 'b' :: (p ++ ['\\', 'b'])

/-- The pattern string `Sub::run` hands to `RegexBuilder`. -/
def effectivePattern (job : Sub) : Str :=
  if job.whole_word then wrapWord job.pattern else job.pattern

/-- How a run can stop abnormally: a returned `SubError`, or the panic of
the `unreachable!()` branch in `Sub::run`. -/
inductive RunErr where
  | subErr (e : SubError)
  | panicked
deriving DecidableEq, Repr

/-- Observable state threaded through a run: the file system, the bytes
written to standard output, and the inputs successfully opened. -/
structure RunState where
  fs : FS
  out : List Nat
  opened : List Input
deriving DecidableEq, Repr

/-- Everything `Sub::run` fixes before iterating inputs. -/
structure Ctx where
  re : Matcher
  filt : Option Matcher
  repl : Str
  inPlace : Bool
  tty : Bool
  stdinBytes : List Nat

/-- `create_reader`: the bytes an input provides, or `FileNotFoundError`. -/
def readInput (ctx : Ctx) (fs : FS) : Input → Except SubError (List Nat)
  | .StdIn => .ok ctx.stdinBytes
  | .File p =>
    match lookupFS fs p with
    | some d => .ok d.content
    | none => .error (.FileNotFoundError p)

/-- The body of `Sub::run`'s per-input loop, including the `is_tty`
routing, the in-place temp-file protocol (write substituted output to a
temp file, copy the original's permission bits onto it, copy it over the
original), and the `unreachable!()` branch. -/
def runInput (ctx : Ctx) (st : RunState) (inp : Input) : RunState × Option RunErr :=
  if ctx.tty then
    match readInput ctx st.fs inp with
    | .error e => (st, some (.subErr e))
    | .ok content =>
      let st1 := { st with opened := st.opened ++ [inp] }
      let (o, err) := replaceStream ctx.re ctx.filt ctx.repl content
      ({ st1 with out := st1.out ++ o }, err.map .subErr)
  else
    match inp with
    | .File p =>
      match readInput ctx st.fs (.File p) with
      | .error e => (st, some (.subErr e))
      | .ok content =>
        let st1 := { st with opened := st.opened ++ [Input.File p] }
        if ctx.inPlace then
          let (o, err) := replaceStream ctx.re ctx.filt ctx.repl content
          match err with
          | some e => (st1, some (.subErr e))
          | none =>
            match lookupFS st1.fs p with
            | some d => ({ st1 with fs := updateFS st1.fs p ⟨d.perm, o⟩ }, none)
            | none => (st1, some (.subErr (.CanNotReadPermissions p)))
        else (st1, some .panicked)
    | .StdIn =>
      match readInput ctx st.fs .StdIn with
      | .error e => (st, some (.subErr e))
      | .ok content =>
        let st1 := { st with opened := st.opened ++ [Input.StdIn] }
        let (o, err) := replaceStream ctx.re ctx.filt ctx.repl content
        ({ st1 with out := st1.out ++ o }, err.map .subErr)

/-- `Sub::run`'s input loop: stop at the first failing input. -/
def runLoop (ctx : Ctx) : List Input → RunState → RunState × Option RunErr
  | [], st => (st, none)
  | i :: rest, st =>
    match runInput ctx st i with
    | (st', none) => runLoop ctx rest st'
    | (st', some e) => (st', some e)

/-- `Sub::run`: compile the effective pattern and the optional line
filter, then process each input in order. -/
def run (job : Sub) (tty : Bool) (stdinBytes : List Nat) (fs : FS) :
    RunState × Option RunErr :=
  match regexCompile (effectivePattern job) job.ignore_case with
  | none => (⟨fs, [], []⟩, some (RunErr.subErr SubError.RegexError))
  | some re =>
    match job.match_pattern with
    | some mp =>
      match regexCompile mp job.ignore_case with
      | none => (⟨fs, [], []⟩, some (RunErr.subErr SubError.RegexError))
      | some f =>
        runLoop ⟨re, some f, job.replacement, job.in_place, tty, stdinBytes⟩
          job.inputs ⟨fs, [], []⟩
    | none =>
      runLoop ⟨re, none, job.replacement, job.in_place, tty, stdinBytes⟩
        job.inputs ⟨fs, [], []⟩

/-! ## Matcher well-formedness -/

/-- A matcher is well formed on `s` when every match lies inside `s` and
runs forward. -/
def MatcherWF (m : Matcher) (s : Str) : Prop :=
  ∀ i e, m.matchAt s i = some e → i ≤ e ∧ e ≤ s.length

theorem atomsMatch_bound (ci : Bool) (pat : List RAtom) :
    ∀ (s : Str) (i e : Nat), atomsMatch ci pat s i = some e → i ≤ e ∧ e ≤ s.length := by
  induction pat with
  | nil =>
    intro s i e h
    simp only [atomsMatch] at h
    split at h
    · injection h with h
      omega
    · exact absurd h (by simp)
  | cons a as ih =>
    intro s i e h
    cases a with
    | lit c =>
      simp only [atomsMatch] at h
      cases hg : s.get? i with
      | none => rw [hg] at h; exact absurd h (by simp)
      | some d =>
        rw [hg] at h
        dsimp only at h
        split at h
        · obtain ⟨hlt, -⟩ := List.get?_eq_some.mp hg
          have := ih s (i + 1) e h
          omega
        · exact absurd h (by simp)
    | anyWordChar =>
      simp only [atomsMatch] at h
      cases hg : s.get? i with
      | none => rw [hg] at h; exact absurd h (by simp)
      | some d =>
        rw [hg] at h
        dsimp only at h
        split at h
        · obtain ⟨hlt, -⟩ := List.get?_eq_some.mp hg
          have := ih s (i + 1) e h
          omega
        · exact absurd h (by simp)
    | wordB =>
      simp only [atomsMatch] at h
      split at h
      · exact ih s i e h
      · exact absurd h (by simp)
    | eol =>
      simp only [atomsMatch] at h
      split at h
      · exact ih s i e h
      · exact absurd h (by simp)

theorem regexMatcherOf_wf (pat : List RAtom) (ci : Bool) (s : Str) :
    MatcherWF (regexMatcherOf pat ci) s :=
  fun i e h => atomsMatch_bound ci pat s i e h

/-! ## Leftmost search -/

theorem findFromAux_some (m : Matcher) (s : Str) :
    ∀ (k j st en : Nat), findFromAux m s j k = some (st, en) →
      j ≤ st ∧ st < j + k ∧ m.matchAt s st = some en ∧
        ∀ i, j ≤ i → i < st → m.matchAt s i = none := by
  intro k
  induction k with
  | zero => intro j st en h; exact absurd h (by simp [findFromAux])
  | succ k ih =>
    intro j st en h
    simp only [findFromAux] at h
    cases hm : m.matchAt s j with
    | some e =>
      rw [hm] at h
      injection h with h
      have hst : j = st := congrArg Prod.fst h
      have hen : e = en := congrArg Prod.snd h
      subst hst; subst hen
      exact ⟨le_refl _, by omega, hm, fun i h1 h2 => by omega⟩
    | none =>
      rw [hm] at h
      obtain ⟨h1, h2, h3, h4⟩ := ih (j + 1) st en h
      refine ⟨by omega, by omega, h3, fun i hi1 hi2 => ?_⟩
      rcases Nat.eq_or_lt_of_le hi1 with rfl | hlt
      · exact hm
      · exact h4 i hlt hi2

theorem findFromAux_none (m : Matcher) (s : Str) :
    ∀ (k j : Nat), findFromAux m s j k = none →
      ∀ i, j ≤ i → i < j + k → m.matchAt s i = none := by
  intro k
  induction k with
  | zero => intro j _ i h1 h2; omega
  | succ k ih =>
    intro j h i h1 h2
    simp only [findFromAux] at h
    cases hm : m.matchAt s j with
    | some e => rw [hm] at h; exact absurd h (by simp)
    | none =>
      rw [hm] at h
      rcases Nat.eq_or_lt_of_le h1 with rfl | hlt
      · exact hm
      · exact ih (j + 1) h i hlt (by omega)

theorem findFrom_some (m : Matcher) (s : Str) (sp st en : Nat)
    (h : findFrom m s sp = some (st, en)) :
    sp ≤ st ∧ m.matchAt s st = some en ∧ ∀ i, sp ≤ i → i < st → m.matchAt s i = none := by
  obtain ⟨h1, _, h3, h4⟩ := findFromAux_some m s _ sp st en h
  exact ⟨h1, h3, h4⟩

theorem findFrom_none (m : Matcher) (s : Str) (sp : Nat) (hwf : MatcherWF m s)
    (h : findFrom m s sp = none) :
    ∀ i e, sp ≤ i → m.matchAt s i = some e → False := by
  intro i e hi hm
  have hb := hwf i e hm
  have hcov := findFromAux_none m s _ sp h i hi (by omega)
  rw [hcov] at hm
  exact absurd hm (by simp)

/-! ## replace_all as stitching over the match sequence -/

theorem replaceCore_eq_stitch (m : Matcher) (repl s : Str) :
    ∀ (fuel last sp : Nat) (lm : Option Nat),
      replaceCore m repl s last sp lm fuel = stitch s repl last (matchListCore m s sp lm fuel) := by
  intro fuel
  induction fuel with
  | zero => intro last sp lm; rfl
  | succ fuel ih =>
    intro last sp lm
    simp only [replaceCore, matchListCore]
    cases h : findFrom m s sp with
    | none => simp [stitch]
    | some pr =>
      obtain ⟨st, en⟩ := pr
      by_cases he : en = st
      · by_cases hl : lm = some st
        · simp [he, hl, ih]
        · simp [he, hl, stitch, ih]
      · simp [he, stitch, ih]

theorem replaceAll_eq_stitch (m : Matcher) (repl s : Str) :
    replaceAll m repl s = stitch s repl 0 (matchList m s) :=
  replaceCore_eq_stitch m repl s (s.length + 1) 0 0 none

/-! ## The leftmost, non-overlapping match chain -/

/-- The specification of the `find_iter` traversal from search position
`sp` with previously yielded match end `lm`: each yielded match is a real
match, starts at or after `sp`, no position strictly before it matches
(except an empty match that would be adjacent to the previous one, which
the iterator skips), and the remainder continues past its end. -/
inductive LeftmostChain (m : Matcher) (s : Str) : Nat → Option Nat → List (Nat × Nat) → Prop where
  | nil (sp : Nat) (lm : Option Nat)
      (h : ∀ j e, sp ≤ j → m.matchAt s j = some e → e = j ∧ lm = some j) :
      LeftmostChain m s sp lm []
  | cons (sp : Nat) (lm : Option Nat) (st en : Nat) (ms : List (Nat × Nat))
      (hsp : sp ≤ st) (hm : m.matchAt s st = some en)
      (hgap : ∀ j e, sp ≤ j → j < st → m.matchAt s j = some e → e = j ∧ lm = some j)
      (hskip : ¬(en = st ∧ lm = some st))
      (htail : LeftmostChain m s (if en = st then st + 1 else en) (some en) ms) :
      LeftmostChain m s sp lm ((st, en) :: ms)

theorem chain_weaken (m : Matcher) (s : Str) (sp sp' : Nat) (lm : Option Nat)
    (ms : List (Nat × Nat)) (hch : LeftmostChain m s sp' lm ms) (hle : sp ≤ sp')
    (hgap : ∀ j e, sp ≤ j → j < sp' → m.matchAt s j = some e → e = j ∧ lm = some j) :
    LeftmostChain m s sp lm ms := by
  cases hch with
  | nil _ _ h =>
    refine .nil sp lm (fun j e hj hm => ?_)
    by_cases hlt : j < sp'
    · exact hgap j e hj hlt hm
    · exact h j e (by omega) hm
  | cons _ _ st en ms hsp hm hg hskip htail =>
    refine .cons sp lm st en ms (by omega) hm (fun j e hj hjlt hm' => ?_) hskip htail
    by_cases hlt : j < sp'
    · exact hgap j e hj hlt hm'
    · exact hg j e (by omega) hjlt hm'

theorem matchListCore_chain (m : Matcher) (s : Str) (hwf : MatcherWF m s) :
    ∀ (fuel sp : Nat) (lm : Option Nat), s.length + 1 ≤ fuel + sp →
      LeftmostChain m s sp lm (matchListCore m s sp lm fuel) := by
  intro fuel
  induction fuel with
  | zero =>
    intro sp lm hf
    refine .nil sp lm (fun j e hj hm => absurd (hwf j e hm) (by omega))
  | succ fuel ih =>
    intro sp lm hf
    simp only [matchListCore]
    cases h : findFrom m s sp with
    | none =>
      exact .nil sp lm (fun j e hj hm => (findFrom_none m s sp hwf h j e hj hm).elim)
    | some pr =>
      obtain ⟨st, en⟩ := pr
      obtain ⟨hsp, hm, hgap⟩ := findFrom_some m s sp st en h
      have hb := hwf st en hm
      dsimp only
      by_cases he : en = st
      · subst he
        rw [if_pos rfl]
        by_cases hl : lm = some en
        · rw [if_pos hl]
          subst hl
          refine chain_weaken m s sp (en + 1) (some en) _
            (ih (en + 1) (some en) (by omega)) (by omega)
            (fun j e hj hjlt hm' => ?_)
          by_cases hjst : j < en
          · rw [hgap j hj hjst] at hm'
            exact absurd hm' (by simp)
          · have hj' : j = en := by omega
            subst hj'
            rw [hm] at hm'
            injection hm' with hm'
            exact ⟨by omega, rfl⟩
        · rw [if_neg hl]
          refine .cons sp lm en en _ hsp hm
            (fun j e hj hjlt hm' => absurd (hgap j hj hjlt ▸ hm') (by simp))
            (fun hc => hl hc.2) ?_
          rw [if_pos rfl]
          exact ih (en + 1) (some en) (by omega)
      · rw [if_neg he]
        refine .cons sp lm st en _ hsp hm
          (fun j e hj hjlt hm' => absurd (hgap j hj hjlt ▸ hm') (by simp))
          (fun hc => he hc.1) ?_
        rw [if_neg he]
        exact ih en (some en) (by omega)

theorem matchList_chain (m : Matcher) (s : Str) (hwf : MatcherWF m s) :
    LeftmostChain m s 0 none (matchList m s) :=
  matchListCore_chain m s hwf (s.length + 1) 0 none (by omega)

theorem chain_valid (m : Matcher) (s : Str) :
    ∀ (sp : Nat) (lm : Option Nat) (ms : List (Nat × Nat)),
      LeftmostChain m s sp lm ms → ∀ p ∈ ms, m.matchAt s p.1 = some p.2 := by
  intro sp lm ms hch
  induction hch with
  | nil => simp
  | cons sp lm st en ms hsp hm hgap hskip htail ih =>
    intro p hp
    rcases List.mem_cons.mp hp with rfl | hp
    · exact hm
    · exact ih p hp

/-! ## Stitching around a preserved suffix -/

theorem extract_append_of_le (content term : Str) (a b : Nat) (hb : b ≤ content.length) :
    extract (content ++ term) a b = extract content a b := by
  unfold extract
  by_cases ha : a ≤ content.length
  · rw [List.drop_append_of_le_length ha]
    rw [List.take_append_of_le_length (by rw [List.length_drop]; omega)]
  · have hba : b - a = 0 := by omega
    simp [hba]

theorem drop_append_of_le (content term : Str) (a : Nat) (ha : a ≤ content.length) :
    (content ++ term).drop a = content.drop a ++ term :=
  List.drop_append_of_le_length ha

theorem stitch_split (content term repl : Str) :
    ∀ (ms : List (Nat × Nat)) (last : Nat), last ≤ content.length →
      (∀ p ∈ ms, p.1 ≤ content.length ∧ p.2 ≤ content.length) →
      stitch (content ++ term) repl last ms = stitch content repl last ms ++ term := by
  intro ms
  induction ms with
  | nil =>
    intro last hl _
    simp only [stitch]
    exact drop_append_of_le content term last hl
  | cons q ms ih =>
    obtain ⟨st, en⟩ := q
    intro last hl hall
    obtain ⟨h1, h2⟩ := hall (st, en) (List.mem_cons_self _ _)
    simp only [stitch]
    rw [extract_append_of_le content term last st h1,
      ih en h2 (fun q hq => hall q (List.mem_cons_of_mem _ hq))]
    simp [List.append_assoc]

theorem mem_stitch (content repl : Str) (c : Char) :
    ∀ (ms : List (Nat × Nat)) (last : Nat), c ∈ stitch content repl last ms →
      c ∈ content ∨ c ∈ repl := by
  intro ms
  induction ms with
  | nil =>
    intro last h
    simp only [stitch] at h
    exact Or.inl (List.drop_subset _ _ h)
  | cons q ms ih =>
    obtain ⟨st, en⟩ := q
    intro last h
    simp only [stitch, extract, List.mem_append] at h
    rcases h with (h | h) | h
    · exact Or.inl (List.drop_subset _ _ (List.take_subset _ _ h))
    · exact Or.inr h
    · exact ih en h

/-! ## processLine gating -/

theorem processLine_not_matched (re f : Matcher) (repl line : Str)
    (h : isMatch f line = false) :
    processLine re (some f) repl line = line := by
  simp [processLine, h]

theorem processLine_matched (re : Matcher) (filt : Option Matcher) (repl line : Str)
    (h : (filt.map (fun f => isMatch f line)).getD true = true) :
    processLine re filt repl line = replaceAll re repl line := by
  simp [processLine, h]

theorem processLine_gate_false (re : Matcher) (filt : Option Matcher) (repl line : Str)
    (h : ¬(filt.map (fun f => isMatch f line)).getD true = true) :
    processLine re filt repl line = line := by
  simp [processLine, h]

/-! ## The chunk loop and decoding errors -/

theorem replaceChunks_none_iff (re : Matcher) (filt : Option Matcher) (repl : Str) :
    ∀ cs : List (List Nat),
      (replaceChunks re filt repl cs).2 = none ↔ ∀ c ∈ cs, (utf8Decode c).isSome := by
  intro cs
  induction cs with
  | nil => simp [replaceChunks]
  | cons c cs ih =>
    cases hc : utf8Decode c with
    | none => simp [replaceChunks, hc]
    | some line => simp [replaceChunks, hc, ih]

theorem replaceChunks_err_iff (re : Matcher) (filt : Option Matcher) (repl : Str) :
    ∀ cs : List (List Nat),
      (replaceChunks re filt repl cs).2 = some SubError.InvalidUTF8 ↔
        ∃ c ∈ cs, utf8Decode c = none := by
  intro cs
  induction cs with
  | nil => simp [replaceChunks]
  | cons c cs ih =>
    cases hc : utf8Decode c with
    | none =>
      simp only [replaceChunks, hc]
      constructor
      · intro _
        exact ⟨c, List.mem_cons_self _ _, hc⟩
      · intro _
        trivial
    | some line =>
      simp only [replaceChunks, hc, ih]
      constructor
      · rintro ⟨d, hd, hdn⟩
        exact ⟨d, List.mem_cons_of_mem _ hd, hdn⟩
      · rintro ⟨d, hd, hdn⟩
        rcases List.mem_cons.mp hd with rfl | hd
        · rw [hc] at hdn; exact absurd hdn (by simp)
        · exact ⟨d, hd, hdn⟩

theorem replaceChunks_prefix_err (re : Matcher) (filt : Option Matcher) (repl : Str) :
    ∀ (pre : List (List Nat)) (bad : List Nat) (post : List (List Nat)),
      (∀ c ∈ pre, (utf8Decode c).isSome) → utf8Decode bad = none →
      replaceChunks re filt repl (pre ++ bad :: post) =
        ((pre.map (fun c =>
            utf8Encode (processLine re filt repl ((utf8Decode c).getD [])))).flatten,
          some SubError.InvalidUTF8) := by
  intro pre
  induction pre with
  | nil =>
    intro bad post _ hbad
    simp [replaceChunks, hbad]
  | cons c pre ih =>
    intro bad post hall hbad
    have hc := hall c (List.mem_cons_self _ _)
    obtain ⟨line, hline⟩ := Option.isSome_iff_exists.mp hc
    have hrec := ih bad post (fun d hd => hall d (List.mem_cons_of_mem _ hd)) hbad
    simp only [List.cons_append, replaceChunks, hline, List.append_eq, hrec, List.map_cons,
      List.flatten_cons, Option.getD_some, List.append_assoc]

/-! ## File-system lookup and update -/

theorem lookupFS_update (fs : FS) (p : String) (d d' : FileData)
    (h : lookupFS fs p = some d) : lookupFS (updateFS fs p d') p = some d' := by
  induction fs with
  | nil => simp [lookupFS] at h
  | cons kv fs ih =>
    obtain ⟨q, x⟩ := kv
    by_cases hq : q = p
    · subst hq
      simp [lookupFS, updateFS, List.find?_cons]
    · have hdq : (decide (q = p)) = false := by simp [hq]
      simp only [lookupFS, List.find?_cons, hdq] at h
      simp only [updateFS, List.map_cons, if_neg hq, lookupFS, List.find?_cons, hdq]
      exact ih h

/-! ## Parsing a word-boundary-wrapped pattern -/

theorem regexParse_append_wb :
    ∀ (p : Str) (atoms : List RAtom), regexParse p = some atoms →
      regexParse (p ++ ['\\', 'b']) = some (atoms ++ [RAtom.wordB]) := by
  intro p
  induction p using regexParse.induct with
  | case10 c rest hx1 hx2 hdol hmeta ih =>
    intro atoms h
    have hc : ¬c = '\\' := by
      intro hcc
      cases rest with
      | nil => exact hx2 hcc rfl
      | cons d r => exact hx1 d r hcc rfl
    simp only [List.cons_append] at *
    simp only [regexParse, if_neg hdol, if_neg hmeta] at h
    rw [show regexParse (c :: (rest ++ ['\\', 'b'])) =
      (if c = '$' then (regexParse (rest ++ ['\\', 'b'])).map (.eol :: ·)
       else if c ∈ ['(', ')', '[', ']', '*', '+', '?', '|', '^', '.'] then none
       else (regexParse (rest ++ ['\\', 'b'])).map (.lit c :: ·)) from ?_]
    · rw [if_neg hdol, if_neg hmeta]
      simp only [Option.map_eq_some'] at h
      obtain ⟨a, ha, rfl⟩ := h
      simp [ih a ha]
    · rw [regexParse.eq_def]
      split <;> simp_all
  | _ =>
    intro atoms h
    (try simp [regexParse] at h ⊢) <;>
      (try obtain ⟨a, ha, rfl⟩ := h) <;>
      simp_all [regexParse]

theorem regexParse_wrapWord (p : Str) (atoms : List RAtom)
    (hp : regexParse p = some atoms) :
    regexParse (wrapWord p) = some (RAtom.wordB :: (atoms ++ [RAtom.wordB])) := by
  have h := regexParse_append_wb p atoms hp
  simp [wrapWord, regexParse, h]

/-! ## End-anchored patterns -/

theorem atomsMatch_eol_end (ci : Bool) :
    ∀ (pats : List RAtom) (s : Str) (i e : Nat),
      atomsMatch ci (pats ++ [RAtom.eol]) s i = some e → e = s.length := by
  intro pats
  induction pats with
  | nil =>
    intro s i e h
    simp only [List.nil_append, atomsMatch] at h
    split at h <;> rename_i hcond
    · split at h
      · injection h with h
        omega
      · exact absurd h (by simp)
    · exact absurd h (by simp)
  | cons a as ih =>
    intro s i e h
    rw [List.cons_append] at h
    cases a with
    | lit c =>
      simp only [atomsMatch] at h
      cases hg : s.get? i with
      | none => rw [hg] at h; exact absurd h (by simp)
      | some d =>
        rw [hg] at h
        dsimp only at h
        split at h
        · exact ih s (i + 1) e h
        · exact absurd h (by simp)
    | anyWordChar =>
      simp only [atomsMatch] at h
      cases hg : s.get? i with
      | none => rw [hg] at h; exact absurd h (by simp)
      | some d =>
        rw [hg] at h
        dsimp only at h
        split at h
        · exact ih s (i + 1) e h
        · exact absurd h (by simp)
    | wordB =>
      simp only [atomsMatch] at h
      split at h
      · exact ih s i e h
      · exact absurd h (by simp)
    | eol =>
      simp only [atomsMatch] at h
      split at h
      · exact ih s i e h
      · exact absurd h (by simp)

/-! ## Run-loop decomposition -/

theorem runLoop_append (ctx : Ctx) :
    ∀ (xs ys : List Input) (st : RunState),
      runLoop ctx (xs ++ ys) st =
        match runLoop ctx xs st with
        | (st', none) => runLoop ctx ys st'
        | (st', some e) => (st', some e) := by
  intro xs
  induction xs with
  | nil => intro ys st; rfl
  | cons i xs ih =>
    intro ys st
    simp only [List.cons_append, runLoop]
    rcases hri : runInput ctx st i with ⟨st', eo⟩
    cases eo with
    | none => exact ih ys st'
    | some e => rfl

/-! ## Claim theorems -/

/-- Claim C1: the claim states that when in-place mode is active and the
input is a file, the input is handled by the in-place editor, with the
terminal check only selecting a writer.  The code instead routes on
`is_tty` first: with a terminal on standard output, an in-place job on an
existing file streams the substituted output to standard output and
leaves the file untouched.  This theorem evaluates `run` at such a job:
the file system is unchanged and the output went to stdout. -/
theorem C1_tty_overrides_in_place :
    run ⟨"foo".toList, "bar".toList, true, false, false, none, [Input.File "f"]⟩ true []
        [("f", ⟨420, utf8Encode "foo\n".toList⟩)]
      = (⟨[("f", ⟨420, utf8Encode "foo\n".toList⟩)],
          utf8Encode "bar\n".toList, [Input.File "f"]⟩, none) := by
  decide

/-- Claim C5: the claim states the `unreachable!()` branch of `Sub::run`
is never reached.  It is reached by any job with a file input, in-place
mode off, and standard output not a terminal: this theorem evaluates
`run` at such a job and obtains the panic. -/
theorem C5_unreachable_is_reached :
    run ⟨"foo".toList, "bar".toList, false, false, false, none, [Input.File "f"]⟩ false []
        [("f", ⟨420, utf8Encode "foo\n".toList⟩)]
      = (⟨[("f", ⟨420, utf8Encode "foo\n".toList⟩)], [], [Input.File "f"]⟩,
          some RunErr.panicked) := by
  decide

/-- Claim C2: a successful in-place edit leaves the file's permission
bits unchanged and replaces its content with exactly the bytes the
stream replacer produces for the original content — which is also
exactly what the streaming-to-stdout path of `run` would write for the
same file. -/
theorem C2_in_place_refines_streaming (ctx : Ctx) (st : RunState) (p : String)
    (d : FileData) (out : List Nat)
    (htty : ctx.tty = false) (hip : ctx.inPlace = true)
    (hfs : lookupFS st.fs p = some d)
    (hrep : replaceStream ctx.re ctx.filt ctx.repl d.content = (out, none)) :
    runInput ctx st (.File p) =
      ({ st with fs := updateFS st.fs p ⟨d.perm, out⟩,
                 opened := st.opened ++ [Input.File p] }, none)
    ∧ lookupFS (runInput ctx st (.File p)).1.fs p = some ⟨d.perm, out⟩
    ∧ runInput { ctx with tty := true } st (.File p) =
        ({ st with out := st.out ++ out,
                   opened := st.opened ++ [Input.File p] }, none) := by
  have h1 : runInput ctx st (.File p) =
      ({ st with fs := updateFS st.fs p ⟨d.perm, out⟩,
                 opened := st.opened ++ [Input.File p] }, none) := by
    simp only [runInput, htty, readInput, hfs, hip, hrep]
    simp
  refine ⟨h1, ?_, ?_⟩
  · rw [h1]
    exact lookupFS_update st.fs p d ⟨d.perm, out⟩ hfs
  · simp only [runInput, readInput, hfs, hrep]
    simp

/-- Claim C3: per line, a present filter that the line does not match
passes the line through byte-identical; otherwise the line undergoes
`replace_all`, which equals stitching the replacement into the gaps of
the leftmost non-overlapping match sequence of the pattern (and leaves
the line unchanged when there is no match). -/
theorem C3_line_substitution (re : Matcher) (filt : Option Matcher) (repl line : Str)
    (hwf : MatcherWF re line) :
    (∀ f, filt = some f → isMatch f line = false → processLine re filt repl line = line)
    ∧ (filt = none → processLine re filt repl line = stitch line repl 0 (matchList re line))
    ∧ (∀ f, filt = some f → isMatch f line = true →
        processLine re filt repl line = stitch line repl 0 (matchList re line))
    ∧ LeftmostChain re line 0 none (matchList re line)
    ∧ (matchList re line = [] → processLine re filt repl line = line) := by
  have hstitch := replaceAll_eq_stitch re repl line
  refine ⟨?_, ?_, ?_, matchList_chain re line hwf, ?_⟩
  · intro f hf hm
    subst hf
    exact processLine_not_matched re f repl line hm
  · intro hf
    subst hf
    rw [processLine_matched re none repl line (by simp), hstitch]
  · intro f hf hm
    subst hf
    rw [processLine_matched re (some f) repl line (by simp [hm]), hstitch]
  · intro hml
    by_cases hg : (filt.map (fun f => isMatch f line)).getD true = true
    · rw [processLine_matched re filt repl line hg, hstitch, hml]
      simp [stitch]
    · exact processLine_gate_false re filt repl line hg

/-- Claim C4 (amended): provided no match of the pattern extends into the
line's terminator, the terminator (`"\n"`, `"\r\n"`, or none) is
reproduced verbatim at the end of the output line, and no terminator
character not coming from the content or the replacement is introduced —
in particular no newline is appended to an unterminated final line. -/
theorem C4_terminators_preserved (m : Matcher) (filt : Option Matcher)
    (repl content term : Str)
    (hwf : MatcherWF m (content ++ term))
    (_hterm : term = ['\n'] ∨ term = ['\r', '\n'] ∨ term = [])
    (hend : ∀ i e, m.matchAt (content ++ term) i = some e → e ≤ content.length) :
    ∃ body, processLine m filt repl (content ++ term) = body ++ term
      ∧ ('\n' ∉ repl → '\n' ∉ content → '\n' ∉ body)
      ∧ ('\r' ∉ repl → '\r' ∉ content → '\r' ∉ body) := by
  by_cases hg : (filt.map (fun f => isMatch f (content ++ term))).getD true = true
  · rw [processLine_matched m filt repl _ hg, replaceAll_eq_stitch]
    have hch := matchList_chain m (content ++ term) hwf
    have hall : ∀ q ∈ matchList m (content ++ term),
        q.1 ≤ content.length ∧ q.2 ≤ content.length := by
      intro q hq
      have hv := chain_valid m (content ++ term) 0 none _ hch q hq
      have h2 := hend q.1 q.2 hv
      have h1 := (hwf q.1 q.2 hv).1
      omega
    rw [stitch_split content term repl _ 0 (by omega) hall]
    refine ⟨stitch content repl 0 (matchList m (content ++ term)), rfl, ?_, ?_⟩
    · intro h1 h2 hmem
      rcases mem_stitch content repl '\n' _ 0 hmem with h | h
      · exact h2 h
      · exact h1 h
    · intro h1 h2 hmem
      rcases mem_stitch content repl '\r' _ 0 hmem with h | h
      · exact h2 h
      · exact h1 h
  · rw [processLine_gate_false m filt repl _ hg]
    exact ⟨content, rfl, fun _ h2 => h2, fun _ h2 => h2⟩

/-- Claim C4 is false as stated: a pattern whose matches include the
terminator alters it.  With pattern `\n` (the compiled atoms of the
two-character pattern `\n`) and empty replacement, the line `"a\n"` is
rewritten to `"a"`: the input line ends with the terminator `'\n'`, the
output does not. -/
theorem C4_counterexample :
    processLine (regexMatcherOf [RAtom.lit '\n'] false) none [] "a\n".toList = "a".toList
    ∧ ("a\n".toList).getLast? = some '\n'
    ∧ ("a".toList).getLast? ≠ some '\n' := by
  decide

/-- Claim C6: the per-input loop of `run` stops at the first failing
input: a prefix that succeeds is fully processed, the failing input
contributes its single error, and the result is independent of whatever
inputs follow the failing one (they are never attempted). -/
theorem C6_first_error_aborts (ctx : Ctx) (pre : List Input) (inp : Input)
    (post post' : List Input) (st stp : RunState) (e : RunErr)
    (h1 : runLoop ctx pre st = (stp, none))
    (h2 : (runInput ctx stp inp).2 = some e) :
    runLoop ctx (pre ++ inp :: post) st = ((runInput ctx stp inp).1, some e)
    ∧ runLoop ctx (pre ++ inp :: post) st = runLoop ctx (pre ++ inp :: post') st := by
  have key : ∀ zs : List Input,
      runLoop ctx (pre ++ inp :: zs) st = ((runInput ctx stp inp).1, some e) := by
    intro zs
    rw [runLoop_append, h1]
    dsimp only
    simp only [runLoop]
    rcases hri : runInput ctx stp inp with ⟨st2, e2⟩
    rw [hri] at h2
    dsimp only at h2
    subst h2
    rfl
  exact ⟨key post, (key post).trans (key post').symm⟩

/-- Claim C7: pattern compilation fails exactly when the effective
(possibly `\b`-wrapped) pattern does not parse, and a compilation
failure makes `run` return `RegexError` with the file system untouched,
nothing written to standard output, and no input opened. -/
theorem C7_pattern_error_before_io (job : Sub) (tty : Bool) (sb : List Nat) (fs : FS)
    (h : regexCompile (effectivePattern job) job.ignore_case = none) :
    run job tty sb fs = (⟨fs, [], []⟩, some (RunErr.subErr SubError.RegexError))
    ∧ (∀ (p : Str) (ci : Bool), regexCompile p ci = none ↔ regexParse p = none) := by
  constructor
  · simp only [run, h]
  · intro p ci
    simp [regexCompile]

/-- Claim C8: the stream replacer fails with `InvalidUTF8` exactly when
some line of the input does not decode as UTF-8, and on such a failure
the output consists exactly of the already-processed earlier lines —
nothing of the offending line, and no lossy fallback. -/
theorem C8_invalid_encoding (re : Matcher) (filt : Option Matcher) (repl : Str)
    (bs : List Nat) :
    ((replaceStream re filt repl bs).2 = some SubError.InvalidUTF8 ↔
      ∃ c ∈ splitAfterNl bs, utf8Decode c = none)
    ∧ ((replaceStream re filt repl bs).2 = none ↔
        ∀ c ∈ splitAfterNl bs, (utf8Decode c).isSome)
    ∧ ∀ (pre : List (List Nat)) (bad : List Nat) (post : List (List Nat)),
        splitAfterNl bs = pre ++ bad :: post →
        (∀ c ∈ pre, (utf8Decode c).isSome) → utf8Decode bad = none →
        replaceStream re filt repl bs =
          ((pre.map (fun c =>
              utf8Encode (processLine re filt repl ((utf8Decode c).getD [])))).flatten,
            some SubError.InvalidUTF8) := by
  refine ⟨replaceChunks_err_iff re filt repl _, replaceChunks_none_iff re filt repl _, ?_⟩
  intro pre bad post hsplit hpre hbad
  unfold replaceStream
  rw [hsplit]
  exact replaceChunks_prefix_err re filt repl pre bad post hpre hbad

/-- Claim C9: with `wholeWord` the pattern string is textually wrapped as
`\b<pattern>\b` before compilation, the wrapped pattern parses to the
original's atoms surrounded by word boundaries, `ignoreCase` is still
applied at compilation, and whole-word `foo` does not match inside
`foobar` while still matching (case-insensitively) a free-standing word. -/
theorem C9_whole_word_wrapping (p : Str) (atoms : List RAtom) (ci : Bool)
    (hp : regexParse p = some atoms) :
    regexParse (wrapWord p) = some (RAtom.wordB :: (atoms ++ [RAtom.wordB]))
    ∧ (∀ job : Sub, job.whole_word = true → effectivePattern job = wrapWord job.pattern)
    ∧ regexCompile (wrapWord p) ci =
        some (regexMatcherOf (RAtom.wordB :: (atoms ++ [RAtom.wordB])) ci)
    ∧ isMatch (regexMatcherOf
        (RAtom.wordB :: ([RAtom.lit 'f', RAtom.lit 'o', RAtom.lit 'o'] ++ [RAtom.wordB]))
        false) "foobar".toList = false
    ∧ isMatch (regexMatcherOf
        (RAtom.wordB :: ([RAtom.lit 'f', RAtom.lit 'o', RAtom.lit 'o'] ++ [RAtom.wordB]))
        true) "a FOO b".toList = true := by
  have h1 := regexParse_wrapWord p atoms hp
  refine ⟨h1, ?_, ?_, by decide, by decide⟩
  · intro job hw
    simp [effectivePattern, hw]
  · simp [regexCompile, h1]

/-- Claim C10: both the line filter and the substitution run on the whole
line buffer including its terminator: a pattern ending in the `$` anchor
can only match at the very end of the buffer (after the terminator), so
`o$` does not substitute in `"foo\n"` but does in the unterminated
`"foo"`, and a filter `o$` rejects `"foo\n"` while accepting `"foo"`. -/
theorem C10_terminator_in_matched_text (pats : List RAtom) (ci : Bool) (line : Str)
    (i e : Nat)
    (h : (regexMatcherOf (pats ++ [RAtom.eol]) ci).matchAt line i = some e) :
    e = line.length
    ∧ processLine (regexMatcherOf [RAtom.lit 'o', RAtom.eol] false) none ['X']
        "foo\n".toList = "foo\n".toList
    ∧ processLine (regexMatcherOf [RAtom.lit 'o', RAtom.eol] false) none ['X']
        "foo".toList = "foX".toList
    ∧ processLine (regexMatcherOf [RAtom.lit 'o'] false)
        (some (regexMatcherOf [RAtom.lit 'o', RAtom.eol] false)) ['X']
        "foo\n".toList = "foo\n".toList
    ∧ processLine (regexMatcherOf [RAtom.lit 'o'] false)
        (some (regexMatcherOf [RAtom.lit 'o', RAtom.eol] false)) ['X']
        "foo".toList = "fXX".toList :=
  ⟨atomsMatch_eol_end ci pats line i e h, by decide, by decide, by decide, by decide⟩

/-! ## Witnesses -/

/-- Witness for C2: an in-place job on a file `f` holding `"foo\n"` with
mode `0o755`-style bits `493` replaces the content with `"bar\n"` and
keeps the permission bits. -/
theorem C2_witness :
    runInput ⟨regexMatcherOf [RAtom.lit 'f', RAtom.lit 'o', RAtom.lit 'o'] false, none,
        "bar".toList, true, false, []⟩
      ⟨[("f", ⟨493, utf8Encode "foo\n".toList⟩)], [], []⟩ (.File "f") =
      ({ fs := updateFS [("f", ⟨493, utf8Encode "foo\n".toList⟩)] "f"
            ⟨493, utf8Encode "bar\n".toList⟩,
         out := [], opened := [Input.File "f"] }, none)
    ∧ lookupFS (runInput ⟨regexMatcherOf [RAtom.lit 'f', RAtom.lit 'o', RAtom.lit 'o'] false,
        none, "bar".toList, true, false, []⟩
          ⟨[("f", ⟨493, utf8Encode "foo\n".toList⟩)], [], []⟩ (.File "f")).1.fs "f" =
        some ⟨493, utf8Encode "bar\n".toList⟩ := by
  have h := C2_in_place_refines_streaming
    ⟨regexMatcherOf [RAtom.lit 'f', RAtom.lit 'o', RAtom.lit 'o'] false, none,
      "bar".toList, true, false, []⟩
    ⟨[("f", ⟨493, utf8Encode "foo\n".toList⟩)], [], []⟩ "f"
    ⟨493, utf8Encode "foo\n".toList⟩ (utf8Encode "bar\n".toList)
    rfl rfl (by decide) (by decide)
  exact ⟨h.1, h.2.1⟩

/-- Witness for C3: pattern `foo`, replacement `bar`, no filter, on the
line `"foo x foo"`. -/
theorem C3_witness :
    processLine (regexMatcherOf [RAtom.lit 'f', RAtom.lit 'o', RAtom.lit 'o'] false) none
        "bar".toList "foo x foo".toList
      = stitch "foo x foo".toList "bar".toList 0
          (matchList (regexMatcherOf [RAtom.lit 'f', RAtom.lit 'o', RAtom.lit 'o'] false)
            "foo x foo".toList)
    ∧ LeftmostChain (regexMatcherOf [RAtom.lit 'f', RAtom.lit 'o', RAtom.lit 'o'] false)
        "foo x foo".toList 0 none
        (matchList (regexMatcherOf [RAtom.lit 'f', RAtom.lit 'o', RAtom.lit 'o'] false)
          "foo x foo".toList) := by
  have h := C3_line_substitution
    (regexMatcherOf [RAtom.lit 'f', RAtom.lit 'o', RAtom.lit 'o'] false) none
    "bar".toList "foo x foo".toList
    (regexMatcherOf_wf [RAtom.lit 'f', RAtom.lit 'o', RAtom.lit 'o'] false "foo x foo".toList)
  exact ⟨h.2.1 rfl, h.2.2.2.1⟩

/-- Witness for C4: pattern `o`, replacement `a`, line `"fo" ++ "\n"`:
every match ends inside the content, so the amended claim applies. -/
theorem C4_witness :
    ∃ body, processLine (regexMatcherOf [RAtom.lit 'o'] false) none "a".toList
        ("fo".toList ++ ['\n']) = body ++ ['\n']
      ∧ ('\n' ∉ "a".toList → '\n' ∉ "fo".toList → '\n' ∉ body)
      ∧ ('\r' ∉ "a".toList → '\r' ∉ "fo".toList → '\r' ∉ body) := by
  refine C4_terminators_preserved (regexMatcherOf [RAtom.lit 'o'] false) none "a".toList
    "fo".toList ['\n'] (regexMatcherOf_wf _ _ _) (Or.inl rfl) ?_
  intro i e h
  obtain ⟨hie, hel⟩ := regexMatcherOf_wf [RAtom.lit 'o'] false ("fo".toList ++ ['\n']) i e h
  by_cases he : e ≤ 2
  · exact he
  · exfalso
    have hlen : ("fo".toList ++ ['\n']).length = 3 := by decide
    rw [hlen] at hel
    have hi3 : i ≤ 3 := by omega
    interval_cases i
    · rw [show (regexMatcherOf [RAtom.lit 'o'] false).matchAt ("fo".toList ++ ['\n']) 0 = none
        from by decide] at h
      exact absurd h (by simp)
    · rw [show (regexMatcherOf [RAtom.lit 'o'] false).matchAt ("fo".toList ++ ['\n']) 1 = some 2
        from by decide] at h
      injection h with h
      omega
    · rw [show (regexMatcherOf [RAtom.lit 'o'] false).matchAt ("fo".toList ++ ['\n']) 2 = none
        from by decide] at h
      exact absurd h (by simp)
    · rw [show (regexMatcherOf [RAtom.lit 'o'] false).matchAt ("fo".toList ++ ['\n']) 3 = none
        from by decide] at h
      exact absurd h (by simp)

/-- Witness for C6: standard input succeeds, a missing file fails, and a
further input after the failure is never attempted. -/
theorem C6_witness :
    runLoop ⟨regexMatcherOf [RAtom.lit 'a'] false, none, "b".toList, false, false,
        utf8Encode "a\n".toList⟩
      ([Input.StdIn] ++ Input.File "missing" :: [Input.StdIn]) ⟨[], [], []⟩ =
      ((runInput ⟨regexMatcherOf [RAtom.lit 'a'] false, none, "b".toList, false, false,
          utf8Encode "a\n".toList⟩
        ⟨[], utf8Encode "b\n".toList, [Input.StdIn]⟩ (Input.File "missing")).1,
        some (RunErr.subErr (SubError.FileNotFoundError "missing")))
    ∧ runLoop ⟨regexMatcherOf [RAtom.lit 'a'] false, none, "b".toList, false, false,
        utf8Encode "a\n".toList⟩
        ([Input.StdIn] ++ Input.File "missing" :: [Input.StdIn]) ⟨[], [], []⟩ =
      runLoop ⟨regexMatcherOf [RAtom.lit 'a'] false, none, "b".toList, false, false,
        utf8Encode "a\n".toList⟩
        ([Input.StdIn] ++ Input.File "missing" :: []) ⟨[], [], []⟩ :=
  C6_first_error_aborts
    ⟨regexMatcherOf [RAtom.lit 'a'] false, none, "b".toList, false, false,
      utf8Encode "a\n".toList⟩
    [Input.StdIn] (Input.File "missing") [Input.StdIn] [] ⟨[], [], []⟩
    ⟨[], utf8Encode "b\n".toList, [Input.StdIn]⟩
    (RunErr.subErr (SubError.FileNotFoundError "missing"))
    (by decide) (by decide)

/-- Witness for C7: the pattern `(` does not parse, and the run aborts
with `RegexError` before touching anything. -/
theorem C7_witness :
    run ⟨['('], ['b'], false, false, false, none, [Input.StdIn]⟩ false [] [] =
      (⟨[], [], []⟩, some (RunErr.subErr SubError.RegexError)) :=
  (C7_pattern_error_before_io ⟨['('], ['b'], false, false, false, none, [Input.StdIn]⟩
    false [] [] rfl).1

/-- Witness for C8: input bytes `"a\n"` followed by the invalid byte
`0xFF`: the valid first line is written substituted, then the invalid
line fails the stream with `InvalidUTF8`. -/
theorem C8_witness :
    replaceStream (regexMatcherOf [RAtom.lit 'a'] false) none "b".toList [97, 10, 255] =
      (([[(97 : Nat), 10]].map (fun c =>
          utf8Encode (processLine (regexMatcherOf [RAtom.lit 'a'] false) none "b".toList
            ((utf8Decode c).getD [])))).flatten,
        some SubError.InvalidUTF8) :=
  (C8_invalid_encoding (regexMatcherOf [RAtom.lit 'a'] false) none "b".toList
    [97, 10, 255]).2.2 [[97, 10]] [255] [] (by decide) (by decide) (by decide)

/-- Witness for C9: the pattern `foo` parses, and whole-word wrapping
behaves as claimed. -/
theorem C9_witness :
    regexParse (wrapWord "foo".toList) =
      some (RAtom.wordB :: ([RAtom.lit 'f', RAtom.lit 'o', RAtom.lit 'o'] ++ [RAtom.wordB]))
    ∧ isMatch (regexMatcherOf
        (RAtom.wordB :: ([RAtom.lit 'f', RAtom.lit 'o', RAtom.lit 'o'] ++ [RAtom.wordB]))
        false) "foobar".toList = false := by
  have h := C9_whole_word_wrapping "foo".toList
    [RAtom.lit 'f', RAtom.lit 'o', RAtom.lit 'o'] false (by decide)
  exact ⟨h.1, h.2.2.2.1⟩

/-- Witness for C10: the pattern `o$` matches in `"fo"` starting at 1 and
necessarily ends at the end of the buffer. -/
theorem C10_witness :
    2 = ("fo".toList).length
    ∧ processLine (regexMatcherOf [RAtom.lit 'o', RAtom.eol] false) none ['X']
        "foo\n".toList = "foo\n".toList := by
  have h := C10_terminator_in_matched_text [RAtom.lit 'o'] false "fo".toList 1 2 (by decide)
  exact ⟨h.1, h.2.1⟩

end SubProg
